import Mathlib

/-
A shallow embedding of the resume-parser core (src/resume_parser.py and the
driver src/main.py).  Text spans produced by the PDF layout collaborator are
modelled as records of text, font size (a rational standing for the float)
and font name; Python dicts are modelled as insertion-ordered association
lists; the concrete regular expressions of the source are modelled by
executable matchers that follow the backtracking semantics of the Python
engine for those exact patterns.
-/

set_option maxRecDepth 8000

namespace ResumeParser

/-- A positioned text span as handed to the layout segmenter: raw text, font
size (float in the source, modelled as a rational) and font name (style such
as boldness is encoded inside this string). -/
structure SpanF where
  text : String
  font_size : ℚ
  font_name : String
deriving DecidableEq

/-- Python str.strip: whitespace removed from both ends.  (The standard
string primitives walk byte positions by well-founded recursion, so the
executable list form is used throughout.) -/
def pyStrip (s : String) : String :=
  String.mk (((s.data.dropWhile Char.isWhitespace).reverse.dropWhile Char.isWhitespace).reverse)

/-- Python str.lower restricted to the ASCII case mapping. -/
def pyLower (s : String) : String := String.mk (s.data.map Char.toLower)

/-- Split a character list at every occurrence of the separator (Python
str.split with an explicit separator). -/
def splitOnCharL (sep : Char) : List Char → List (List Char)
  | [] => [[]]
  | c :: t =>
    let r := splitOnCharL sep t
    if c == sep then [] :: r
    else
      match r with
      | [] => [[c]]
      | h :: rt => (c :: h) :: rt

/-- Python str.endswith for a one-character suffix. -/
def endsWithChar (s : String) (c : Char) : Bool := s.data.getLast? == some c

/-- A Python regex word character (ASCII fragment of the engine's w class). -/
def isWordChar (c : Char) : Bool := c.isAlpha || c.isDigit || c == '_'

/-- Word-boundary test of the regex engine at position k of the character
list: exactly one of the two neighbouring positions holds a word character
(out-of-range neighbours count as non-word). -/
def boundaryAt (cs : List Char) (k : Nat) : Bool :=
  (decide (0 < k) && isWordChar (cs.getD (k - 1) ' ')) !=
    (decide (k < cs.length) && isWordChar (cs.getD k ' '))

/-- Matcher for the section-heading regex of the source (caret, at least four
uppercase letters, a word boundary, then anything).  The existential over the
repetition count k mirrors the engine's backtracking over the counted
repetition; the trailing dot-star always matches and is dropped. -/
def headingMatchL (cs : List Char) : Bool :=
  (List.range (cs.length + 1)).any fun k =>
    decide (4 ≤ k) && (cs.take k).all Char.isUpper && boundaryAt cs k

/-- The heading test re.match applies to a span's stripped text. -/
def headingMatch (s : String) : Bool := headingMatchL s.data

/-- Section mapping: heading label to content spans, in insertion order
(a Python dict of string keys). -/
abbrev Sections := List (String × List SpanF)

/-- Python dict assignment sections[k] = v: replace the value of an existing
key in place, otherwise append the new key at the end. -/
def dictSet (m : Sections) (k : String) (v : List SpanF) : Sections :=
  match m with
  | [] => [(k, v)]
  | (k0, v0) :: rest => if k0 = k then (k0, v) :: rest else (k0, v0) :: dictSet rest k v

/-- State of the layout segmenter's loop. -/
structure SegState where
  sections : Sections
  current_title : Option String
  current_content : List SpanF
deriving DecidableEq

/-- A span as the segmenter stores it: text stripped, font data kept. -/
def stripSpan (s : SpanF) : SpanF := ⟨pyStrip s.text, s.font_size, s.font_name⟩

/-- One iteration of extract_sections_with_font_info: a heading span flushes
the open section and opens a new one seeded with itself; any other span is
appended to the open section, or discarded when none is open. -/
def segStep (st : SegState) (sp : SpanF) : SegState :=
  let text := pyStrip sp.text
  if headingMatch text then
    let secs :=
      match st.current_title with
      | some t => dictSet st.sections t st.current_content
      | none => st.sections
    ⟨secs, some text, [⟨text, sp.font_size, sp.font_name⟩]⟩
  else
    match st.current_title with
    | some _ =>
        { st with current_content := st.current_content ++ [⟨text, sp.font_size, sp.font_name⟩] }
    | none => st

/-- extract_sections_with_font_info over the collaborator's span stream
(pages, blocks and lines flattened in traversal order), with the final flush
of the last open section. -/
def extract_sections_with_font_info (spans : List SpanF) : Sections :=
  let st := spans.foldl segStep ⟨[], none, []⟩
  match st.current_title with
  | some t => dictSet st.sections t st.current_content
  | none => st.sections

/-- Bool infix test on character lists: the needle is a prefix of some
suffix. -/
def containsSubL (n : List Char) : List Char → Bool
  | [] => n.isEmpty
  | c :: t => n.isPrefixOf (c :: t) || containsSubL n t

/-- Python substring containment needle in hay. -/
def containsSub (needle hay : String) : Bool := containsSubL needle.data hay.data

/-- re.search of a plain-word alternation with IGNORECASE: some keyword is a
case-insensitive substring of the title. -/
def searchCI (kws : List String) (title : String) : Bool :=
  kws.any fun kw => containsSub (pyLower kw) (pyLower title)

/-- The shared body of the four section-keyword extractors: the texts of the
content spans whose font size is strictly below the first span's font size.
An empty content iterates zero times, so the first-element read inside the
comprehension is never reached (as in the source). -/
def smallerThanHead (content : List SpanF) : List String :=
  match content with
  | [] => []
  | h :: _ => (content.filter fun it => decide (it.font_size < h.font_size)).map SpanF.text

def skill_section_keywords : List String := ["Skills", "Technical Skills", "Core Competencies"]

def extract_skills (sections : Sections) : List String :=
  sections.foldl
    (fun acc p => if searchCI skill_section_keywords p.1 then acc ++ smallerThanHead p.2 else acc)
    []

def education_keywords : List String := ["Education", "Academic Background"]

def extract_education (sections : Sections) : List String :=
  sections.foldl
    (fun acc p => if searchCI education_keywords p.1 then acc ++ smallerThanHead p.2 else acc)
    []

def certification_section_titles : List String := ["Certification", "Certifications", "Licenses"]

def extract_certifications (sections : Sections) : List String :=
  sections.foldl
    (fun acc p =>
      if searchCI certification_section_titles p.1 then acc ++ smallerThanHead p.2 else acc)
    []

def project_section_titles : List String := ["Projects", "Project Experience"]

def extract_projects (sections : Sections) : List String :=
  sections.foldl
    (fun acc p => if searchCI project_section_titles p.1 then acc ++ smallerThanHead p.2 else acc)
    []

/-- Matcher for the name regex of extract_name (caret, an uppercase letter,
letters, one or more whitespace, an uppercase letter, letters, dollar).  The
character classes of neighbouring pieces are disjoint, so greedy matching is
deterministic and this recursion is exactly the engine's behaviour. -/
def nameMatchL : List Char → Bool
  | [] => false
  | c :: rest =>
    c.isUpper &&
      (match rest.dropWhile Char.isAlpha with
       | [] => false
       | w :: r1 =>
         w.isWhitespace &&
           (match (w :: r1).dropWhile Char.isWhitespace with
            | [] => false
            | d :: r2 => d.isUpper && (r2.dropWhile Char.isAlpha).isEmpty))

def nameMatch (s : String) : Bool := nameMatchL s.data

/-- Python splitlines, modelled as splitting on the newline character. -/
def splitLines (text : String) : List String := (splitOnCharL '\n' text.data).map String.mk

/-- extract_name: the first stripped line fully matching the name pattern,
none when no line matches. -/
def extract_name (text : String) : Option String :=
  ((splitLines text).map pyStrip).find? nameMatch

/-- The summary-title alternation of extract_summary, as listed in the source. -/
def summaryTitles : List String :=
  ["Summary", "Professional Summary", "Career Summary", "Executive Summary",
   "Summary of Qualifications", "Profile", "Professional Profile", "Personal Profile",
   "Career Profile", "Personal Summary", "Overview", "Objective", "Career Objective",
   "Professional Objective", "Statement", "Introduction", "About Me"]

/-- re.match of the summary-title alternation with IGNORECASE anchored by
whitespace-star dollar: some alternative is a case-insensitive line head and
the remainder of the line is whitespace. -/
def titleMatch (line : String) : Bool :=
  summaryTitles.any fun t =>
    (pyLower t).data.isPrefixOf (pyLower line).data &&
      ((pyLower line).data.drop (pyLower t).data.length).all Char.isWhitespace

/-- The name-shaped test of extract_summary: one or more letters or
whitespace filling the whole line. -/
def nameShaped (line : String) : Bool :=
  !line.data.isEmpty && line.data.all fun c => c.isAlpha || c.isWhitespace

/-- The line loop of extract_summary with its accumulated summary text,
name-found flag and capturing flag; returning without recursing models the
break statements. -/
def summaryLoop : List String → String → Bool → Bool → String
  | [], acc, _, _ => acc
  | l :: rest, acc, nf, cap =>
    if titleMatch l then summaryLoop rest acc nf true
    else if cap then
      if headingMatch l then acc
      else if !(pyStrip l).data.isEmpty then
        let acc' := acc ++ pyStrip l ++ " "
        if endsWithChar (pyStrip l) '.' then acc' else summaryLoop rest acc' nf cap
      else summaryLoop rest acc nf cap
    else if nameShaped l && !nf then summaryLoop rest acc true cap
    else if nf && !cap then summaryLoop rest (pyStrip l) nf true
    else summaryLoop rest acc nf cap

def extract_summary (text : String) : String :=
  pyStrip (summaryLoop (splitLines text) "" false false)

/-! The accounts regex: a URL alternative of optional scheme, optional www
dot, a captured domain label, an uncaptured dot and TLD and an optional
captured path, or an email alternative captured whole.  The matchers below
realise the engine's leftmost scan with its backtracking for this pattern. -/

/-- The five capture groups of one match of the accounts pattern. -/
structure AccMatch where
  scheme : String
  www : String
  domain : String
  path : String
  email : String
deriving DecidableEq

def isUrlDomainChar (c : Char) : Bool := c.isAlpha || c.isDigit || c == '-'

def isEmailLocalChar (c : Char) : Bool :=
  c.isAlpha || c.isDigit || c == '.' || c == '_' || c == '%' || c == '+' || c == '-'

def isEmailDomChar (c : Char) : Bool := c.isAlpha || c.isDigit || c == '.' || c == '-'

/-- Core of the URL alternative after scheme and www have been consumed:
a nonempty domain-label run, a literal dot, a nonempty TLD letter run, then
an optional slash-led non-whitespace path.  Greedy runs are deterministic
here because the neighbouring classes are disjoint. -/
def urlCore (cs : List Char) : Option (String × String × List Char) :=
  let dom := cs.takeWhile isUrlDomainChar
  if dom.isEmpty then none
  else
    match cs.dropWhile isUrlDomainChar with
    | [] => none
    | c :: r2 =>
      if c == '.' then
        let tld := r2.takeWhile Char.isAlpha
        if tld.isEmpty then none
        else
          match r2.dropWhile Char.isAlpha with
          | [] => some (String.mk dom, "", [])
          | d :: r4 =>
            if d == '/' then
              some (String.mk dom, String.mk ('/' :: r4.takeWhile (fun c => !c.isWhitespace)),
                r4.dropWhile (fun c => !c.isWhitespace))
            else some (String.mk dom, "", d :: r4)
      else none

/-- The ways the optional scheme group can engage at this position, most
preferred first: the engine consumes a full scheme when one is present and
otherwise leaves the group unmatched, and on later failure retries with the
group unmatched. -/
def schemeOptions (cs : List Char) : List (String × List Char) :=
  if "https://".data.isPrefixOf cs then [("https://", cs.drop 8), ("", cs)]
  else if "http://".data.isPrefixOf cs then [("http://", cs.drop 7), ("", cs)]
  else [("", cs)]

/-- Likewise for the optional www-dot group. -/
def wwwOptions (cs : List Char) : List (String × List Char) :=
  if "www.".data.isPrefixOf cs then [("www.", cs.drop 4), ("", cs)] else [("", cs)]

/-- The URL alternative at this position: try the scheme and www engagements
in the engine's preference order and take the first that lets the core
complete. -/
def tryAlt1 (cs : List Char) : Option (AccMatch × List Char) :=
  ((schemeOptions cs).flatMap fun so => (wwwOptions so.2).map fun wo => (so.1, wo.1, wo.2)
    ).findSome? fun t =>
      (urlCore t.2.2).map fun r => (⟨t.1, t.2.1, r.1, r.2.1, ""⟩, r.2.2)

/-- The email alternative at this position: a nonempty local run, an at sign,
then a run of domain characters split greedily (longest first, as the engine
backtracks) into a nonempty class run, a literal dot and a TLD of at least
two letters. -/
def tryAlt2 (cs : List Char) : Option (AccMatch × List Char) :=
  let lcl := cs.takeWhile isEmailLocalChar
  if lcl.isEmpty then none
  else
    match cs.dropWhile isEmailLocalChar with
    | [] => none
    | a :: r1 =>
      if a == '@' then
        let m := (r1.takeWhile isEmailDomChar).length
        ((List.range m).map fun i => m - i).findSome? fun r =>
          if r1.getD r ' ' == '.' then
            let tl := (r1.drop (r + 1)).takeWhile Char.isAlpha
            if 2 ≤ tl.length then
              some (⟨"", "", "", "", String.mk (lcl ++ '@' :: r1.take (r + 1 + tl.length))⟩,
                r1.drop (r + 1 + tl.length))
            else none
          else none
      else none

/-- One attempt of the alternation at this position: the URL alternative is
tried before the email alternative. -/
def tryMatch (cs : List Char) : Option (AccMatch × List Char) :=
  (tryAlt1 cs).orElse fun _ => tryAlt2 cs

/-- The findall scan: at each position try the alternation, on success record
the groups and resume after the match, otherwise advance one character.  Fuel
makes the recursion structural; every step consumes at least one input
character, so fuel of the input length plus one always suffices. -/
def scanAux : Nat → List Char → List AccMatch
  | 0, _ => []
  | fuel + 1, cs =>
    match tryMatch cs with
    | some (m, rest) => m :: scanAux fuel rest
    | none =>
      match cs with
      | [] => []
      | _ :: t => scanAux fuel t

def reFindallAccounts (s : String) : List AccMatch := scanAux (s.data.length + 1) s.data

/-- The accounts dictionary: domain token to the raw matched strings, in
first-seen key order (a Python dict with setdefault-append updates). -/
abbrev AccountsIndex := List (String × List String)

/-- Python accounts.setdefault(k, empty).append(v). -/
def dictAppend (m : AccountsIndex) (k : String) (v : String) : AccountsIndex :=
  match m with
  | [] => [(k, [v])]
  | (k0, vs) :: rest => if k0 = k then (k0, vs ++ [v]) :: rest else (k0, vs) :: dictAppend rest k v

/-- The grouping key of an email: the token before the first dot in the part
after the at sign.  The fallthrough arm is unreachable for strings produced
by the email alternative, which always contain an at sign (the source would
raise there). -/
def emailKey (email : String) : String :=
  match splitOnCharL '@' email.data with
  | _ :: p :: _ => String.mk ((splitOnCharL '.' p).headD [])
  | _ => ""

/-- One match's contribution to the accounts dictionary: the URL branch joins
the four captured URL groups (dropping the dot and TLD, which no group
captures) and stores under the domain label when that label is nonempty; the
email branch stores the email under its derived key with no emptiness
check. -/
def accountsStep (acc : AccountsIndex) (m : AccMatch) : AccountsIndex :=
  let full_url := m.scheme ++ m.www ++ m.domain ++ m.path
  let acc1 :=
    if full_url ≠ "" then (if m.domain ≠ "" then dictAppend acc m.domain full_url else acc)
    else acc
  if m.email ≠ "" then dictAppend acc1 (emailKey m.email) m.email else acc1

def extract_accounts_from_resume (text : String) : AccountsIndex :=
  (reFindallAccounts text).foldl accountsStep []

/-- One entry of the work-experience extractor. -/
structure WorkEntry where
  title : Option String
  company : Option String
  dates : Option String
  responsibilities : List String
deriving DecidableEq

def emptyEntry : WorkEntry := ⟨none, none, none, []⟩

/-- Python truthiness of an optional-string field: present and nonempty. -/
def optTruthy : Option String → Bool
  | some s => !s.data.isEmpty
  | none => false

/-- n consecutive digits starting at index i. -/
def digitsAt (cs : List Char) (i n : Nat) : Bool :=
  decide (i + n ≤ cs.length) && ((cs.drop i).take n).all Char.isDigit

/-- re.search of the date pattern (word boundary, two digits slash four
digits or four digits, word boundary): some position carries either
alternative between boundaries. -/
def dateRegexL (cs : List Char) : Bool :=
  (List.range (cs.length + 1)).any fun i =>
    boundaryAt cs i &&
      ((digitsAt cs i 2 && (cs.getD (i + 2) ' ' == '/') && digitsAt cs (i + 3) 4 &&
          boundaryAt cs (i + 7)) ||
        (digitsAt cs i 4 && boundaryAt cs (i + 4)))

def dateMatch (text : String) : Bool := dateRegexL text.data || containsSub "Present" text

/-- Number of whitespace-separated tokens, as Python split() counts them. -/
def tokenCount (cs : List Char) : Nat :=
  (cs.foldl
    (fun (st : Nat × Bool) c =>
      if c.isWhitespace then (st.1, false)
      else if st.2 then st else (st.1 + 1, true))
    (0, false)).1

/-- State of the work-experience loop: committed entries, the entry under
construction and the collecting-responsibilities flag. -/
structure WEState where
  entries : List WorkEntry
  current : WorkEntry
  collecting : Bool
deriving DecidableEq

/-- One iteration of the work-experience state machine, rules in the
source's priority order: bold large span starts a title (committing a
truthy-titled previous entry); large non-bold span with a truthy title and
falsy company sets the company; a date-like text sets the dates and starts
collecting; a collected small span of more than three tokens joins the
responsibilities. -/
def weStep (st : WEState) (line : SpanF) : WEState :=
  let text := pyStrip line.text
  let is_bold := containsSub "Bold" line.font_name
  if is_bold && decide ((10 : ℚ) ≤ line.font_size) then
    let st1 :=
      if optTruthy st.current.title then
        { st with entries := st.entries ++ [st.current], current := emptyEntry }
      else st
    { st1 with current := { st1.current with title := some text }, collecting := false }
  else if decide ((10 : ℚ) ≤ line.font_size) && !is_bold && optTruthy st.current.title &&
      !optTruthy st.current.company then
    { st with current := { st.current with company := some text }, collecting := false }
  else if dateMatch text then
    { st with current := { st.current with dates := some text }, collecting := true }
  else if st.collecting && decide (line.font_size < (10 : ℚ)) then
    if 3 < tokenCount text.data then
      { st with current :=
          { st.current with responsibilities := st.current.responsibilities ++ [text] } }
    else st
  else st

def work_experience_titles : List String :=
  ["Work Experience", "Professional Experience", "Employment History"]

/-- The loop body applied to one section's content, skipping the heading span
and committing the last entry when its title is truthy. -/
def processWESection (content : List SpanF) : List WorkEntry :=
  let st := (content.drop 1).foldl weStep ⟨[], emptyEntry, false⟩
  if optTruthy st.current.title then st.entries ++ [st.current] else st.entries

/-- extract_work_experience: only the first section whose label matches the
keyword set is processed (the source breaks after it). -/
def extract_work_experience (sections : Sections) : List WorkEntry :=
  match sections.find? (fun p => searchCI work_experience_titles p.1) with
  | some p => processWESection p.2
  | none => []

/-- The heterogeneous values of the final resume dictionary of main.py. -/
inductive FieldValue where
  | str : String → FieldValue
  | strs : List String → FieldValue
  | accounts : AccountsIndex → FieldValue
  | work : List WorkEntry → FieldValue
deriving DecidableEq

def sentinel : FieldValue := FieldValue.str "Not found"

/-- parse_resume of main.py over the two collaborator outputs (the flat text
and the positioned span stream, which the source obtains from the PDF): each
field holds the extractor's value when truthy and the sentinel otherwise. -/
def parse_resume (text : String) (spans : List SpanF) : List (String × FieldValue) :=
  let sections := extract_sections_with_font_info spans
  let name := extract_name text
  let summary := extract_summary text
  let accounts := extract_accounts_from_resume text
  let skills := extract_skills sections
  let education := extract_education sections
  let certifications := extract_certifications sections
  let projects := extract_projects sections
  let work := extract_work_experience sections
  [("Name",
      match name with
      | some n => if n.data.isEmpty then sentinel else FieldValue.str n
      | none => sentinel),
   ("Summary", if summary.data.isEmpty then sentinel else FieldValue.str summary),
   ("Accounts", if accounts.isEmpty then sentinel else FieldValue.accounts accounts),
   ("Skills", if skills.isEmpty then sentinel else FieldValue.strs skills),
   ("Education", if education.isEmpty then sentinel else FieldValue.strs education),
   ("Certifications", if certifications.isEmpty then sentinel else FieldValue.strs certifications),
   ("Projects", if projects.isEmpty then sentinel else FieldValue.strs projects),
   ("Work Experience", if work.isEmpty then sentinel else FieldValue.work work)]

/-! ### List helper lemmas -/

theorem isWordChar_of_isUpper (c : Char) (h : c.isUpper = true) : isWordChar c = true := by
  simp [isWordChar, Char.isAlpha, h]

theorem all_takeWhile_self (p : Char → Bool) (cs : List Char) :
    (cs.takeWhile p).all p = true := by
  induction cs with
  | nil => rfl
  | cons c t ih => by_cases hc : p c = true <;> simp [List.takeWhile_cons, hc, ih]

theorem takeWhile_length_le (p : Char → Bool) (cs : List Char) :
    (cs.takeWhile p).length ≤ cs.length := by
  induction cs with
  | nil => simp
  | cons c t ih =>
    by_cases hc : p c = true <;> simp [List.takeWhile_cons, hc]
    omega

theorem le_takeWhile_of_take_all (p : Char → Bool) (cs : List Char) (k : Nat)
    (hk : k ≤ cs.length) (h : (cs.take k).all p = true) :
    k ≤ (cs.takeWhile p).length := by
  induction cs generalizing k with
  | nil => simpa using hk
  | cons c t ih =>
    cases k with
    | zero => exact Nat.zero_le _
    | succ n =>
      simp only [List.take_succ_cons, List.all_cons, Bool.and_eq_true] at h
      simp only [List.takeWhile_cons, h.1, if_true, List.length_cons]
      have := ih n (by simpa using hk) h.2
      omega

theorem getD_takeWhile_pos (p : Char → Bool) (cs : List Char) (k : Nat) (d : Char)
    (h : k < (cs.takeWhile p).length) : p (cs.getD k d) = true := by
  induction cs generalizing k with
  | nil => simp [List.takeWhile] at h
  | cons c t ih =>
    by_cases hc : p c = true
    · simp only [List.takeWhile_cons, hc, if_true, List.length_cons] at h
      cases k with
      | zero => simpa [List.getD] using hc
      | succ n =>
        simp only [List.getD_cons_succ]
        exact ih n (Nat.lt_of_succ_lt_succ h)
    · simp [List.takeWhile_cons, hc] at h

theorem getD_after_takeWhile (p : Char → Bool) (cs : List Char) (d : Char)
    (h : (cs.takeWhile p).length < cs.length) :
    p (cs.getD (cs.takeWhile p).length d) = false := by
  induction cs with
  | nil => simp at h
  | cons c t ih =>
    by_cases hc : p c = true
    · simp only [List.takeWhile_cons, hc, if_true, List.length_cons] at h ⊢
      simpa [List.getD_cons_succ] using ih (Nat.lt_of_succ_lt_succ h)
    · simp only [List.takeWhile_cons, hc, if_false, List.length_nil]
      simpa [List.getD] using hc

theorem take_takeWhile_length (p : Char → Bool) (cs : List Char) :
    cs.take (cs.takeWhile p).length = cs.takeWhile p := by
  induction cs with
  | nil => rfl
  | cons c t ih => by_cases hc : p c = true <;> simp [List.takeWhile_cons, hc, ih]

/-! ### Claim C4: the heading classifier -/

/-- The claim-side heading pattern, following the spec's words only: the
stripped text starts with four or more consecutive uppercase letters,
arbitrary suffix.  Kept separate from the source-derived headingMatch so the
two can be compared. -/
def startsWithFourUppercase (s : String) : Bool :=
  decide (4 ≤ s.data.length) && (s.data.take 4).all Char.isUpper

/-- Claim C4 counterexample: the stripped text ABCDe starts with four
consecutive uppercase letters followed by a further character, yet the
heading regex rejects it (the mandatory word boundary after the uppercase
run fails before a lowercase letter), so a span carrying it opens no
section. -/
theorem spec2proof_C4_counterexample :
    startsWithFourUppercase "ABCDe" = true ∧ headingMatch "ABCDe" = false ∧
      extract_sections_with_font_info [⟨"ABCDe", 12, "Helvetica"⟩] = [] := by
  refine ⟨by decide, by decide, by decide⟩

/-- Left and right word-context of a position cannot both be word characters
at a boundary. -/
theorem boundary_false_of (cs : List Char) (k : Nat) (h0 : 0 < k) (hl : k < cs.length)
    (h1 : isWordChar (cs.getD (k - 1) ' ') = true) (h2 : isWordChar (cs.getD k ' ') = true) :
    boundaryAt cs k = false := by
  unfold boundaryAt
  rw [h1, h2, decide_eq_true h0, decide_eq_true hl]
  rfl

theorem boundary_right_false (cs : List Char) (k : Nat) (h0 : 0 < k)
    (h1 : isWordChar (cs.getD (k - 1) ' ') = true) (hb : boundaryAt cs k = true) :
    (decide (k < cs.length) && isWordChar (cs.getD k ' ')) = false := by
  unfold boundaryAt at hb
  rw [h1, decide_eq_true h0] at hb
  cases h : (decide (k < cs.length) && isWordChar (cs.getD k ' '))
  · rfl
  · rw [h] at hb
    exact absurd hb (by decide)

theorem boundary_true_left (cs : List Char) (k : Nat) (h0 : 0 < k)
    (h1 : isWordChar (cs.getD (k - 1) ' ') = true)
    (hr : (decide (k < cs.length) && isWordChar (cs.getD k ' ')) = false) :
    boundaryAt cs k = true := by
  unfold boundaryAt
  rw [h1, hr, decide_eq_true h0]
  rfl

/-- Closed form of the heading matcher at the character-list level: the
maximal uppercase prefix run has length at least four and the character right
after the run is absent or not a word character. -/
theorem heading_characterizationL (cs : List Char) :
    headingMatchL cs = true ↔
      (4 ≤ (cs.takeWhile Char.isUpper).length ∧
        ((cs.takeWhile Char.isUpper).length = cs.length ∨
          isWordChar (cs.getD (cs.takeWhile Char.isUpper).length ' ') = false)) := by
  unfold headingMatchL
  rw [List.any_eq_true]
  constructor
  · rintro ⟨k, hkmem, hk⟩
    rw [List.mem_range] at hkmem
    simp only [Bool.and_eq_true, decide_eq_true_eq] at hk
    obtain ⟨⟨h4, hall⟩, hbnd⟩ := hk
    have hklen : k ≤ cs.length := Nat.lt_succ_iff.mp hkmem
    have hku : k ≤ (cs.takeWhile Char.isUpper).length :=
      le_takeWhile_of_take_all Char.isUpper cs k hklen hall
    have hkeq : k = (cs.takeWhile Char.isUpper).length := by
      rcases Nat.lt_or_ge k (cs.takeWhile Char.isUpper).length with hlt | hge
      · exfalso
        have hklt : k < cs.length :=
          Nat.lt_of_lt_of_le hlt (takeWhile_length_le Char.isUpper cs)
        have hfb : boundaryAt cs k = false :=
          boundary_false_of cs k (by omega) hklt
            (isWordChar_of_isUpper _ (getD_takeWhile_pos Char.isUpper cs (k - 1) ' ' (by omega)))
            (isWordChar_of_isUpper _ (getD_takeWhile_pos Char.isUpper cs k ' ' hlt))
        rw [hfb] at hbnd
        exact Bool.false_ne_true hbnd
      · omega
    rw [← hkeq]
    refine ⟨h4, ?_⟩
    have hleft : isWordChar (cs.getD (k - 1) ' ') = true :=
      isWordChar_of_isUpper _ (getD_takeWhile_pos Char.isUpper cs (k - 1) ' ' (by omega))
    have hright := boundary_right_false cs k (by omega) hleft hbnd
    rcases Nat.lt_or_ge k cs.length with hlt | hge
    · right
      rw [decide_eq_true hlt, Bool.true_and] at hright
      exact hright
    · left
      omega
  · rintro ⟨h4, hrest⟩
    refine ⟨(cs.takeWhile Char.isUpper).length, ?_, ?_⟩
    · rw [List.mem_range]
      exact Nat.lt_succ_of_le (takeWhile_length_le Char.isUpper cs)
    · have hall : (cs.take (cs.takeWhile Char.isUpper).length).all Char.isUpper = true := by
        rw [take_takeWhile_length]
        exact all_takeWhile_self Char.isUpper cs
      have hleft : isWordChar (cs.getD ((cs.takeWhile Char.isUpper).length - 1) ' ') = true :=
        isWordChar_of_isUpper _ (getD_takeWhile_pos Char.isUpper cs _ ' ' (by omega))
      have hright : (decide ((cs.takeWhile Char.isUpper).length < cs.length) &&
          isWordChar (cs.getD (cs.takeWhile Char.isUpper).length ' ')) = false := by
        rcases hrest with heq | hw
        · rw [heq]
          simp
        · rw [hw]
          simp
      have hb := boundary_true_left cs (cs.takeWhile Char.isUpper).length (by omega) hleft hright
      rw [hb, hall]
      simp [h4]

/-- Claim C4 amended: a stripped text is classified as a heading exactly when
its maximal leading run of uppercase letters has length at least four and the
character right after that run is absent or is not a word character (the word
boundary of the pattern); a suffix beginning with a letter, digit or
underscore defeats the match. -/
theorem spec2proof_C4_amended (s : String) :
    headingMatch s = true ↔
      (4 ≤ (s.data.takeWhile Char.isUpper).length ∧
        ((s.data.takeWhile Char.isUpper).length = s.data.length ∨
          isWordChar (s.data.getD (s.data.takeWhile Char.isUpper).length ' ') = false)) :=
  heading_characterizationL s.data

/-! ### Segmenter invariants: claims C6, C10, C7 -/

/-- Membership after a dict assignment: the pair was already present or is
the assigned pair. -/
theorem mem_dictSet {m : Sections} {k : String} {v : List SpanF} {p : String × List SpanF}
    (hp : p ∈ dictSet m k v) : p ∈ m ∨ p = (k, v) := by
  induction m with
  | nil =>
    simp [dictSet] at hp
    exact Or.inr hp
  | cons q rest ih =>
    obtain ⟨k0, v0⟩ := q
    by_cases h : k0 = k
    · subst h
      simp [dictSet] at hp
      rcases hp with h1 | h2
      · exact Or.inr (by simp [h1])
      · exact Or.inl (List.mem_cons_of_mem _ h2)
    · simp [dictSet, h] at hp
      rcases hp with h1 | h2
      · exact Or.inl (by simp [h1])
      · rcases ih h2 with h3 | h4
        · exact Or.inl (List.mem_cons_of_mem _ h3)
        · exact Or.inr h4

/-- A section record is headed: its content starts with a span whose text is
the section label, and the label matches the heading pattern. -/
def headedContent (p : String × List SpanF) : Prop :=
  ∃ h rest, p.2 = h :: rest ∧ h.text = p.1 ∧ headingMatch p.1 = true

/-- Loop invariant of the segmenter: flushed sections are headed and so is
the open section, when one exists. -/
def SegInvariant (st : SegState) : Prop :=
  (∀ p ∈ st.sections, headedContent p) ∧
    ∀ t, st.current_title = some t → headedContent (t, st.current_content)

theorem segStep_invariant (st : SegState) (sp : SpanF) (h : SegInvariant st) :
    SegInvariant (segStep st sp) := by
  obtain ⟨hsec, hcur⟩ := h
  unfold segStep
  cases hh : headingMatch (pyStrip sp.text) with
  | true =>
    simp only [hh, if_true]
    constructor
    · intro p hp
      cases hct : st.current_title with
      | none =>
        rw [hct] at hp
        exact hsec p hp
      | some t =>
        rw [hct] at hp
        rcases mem_dictSet hp with h1 | h2
        · exact hsec p h1
        · rw [h2]
          exact hcur t hct
    · intro t ht
      simp only [Option.some.injEq] at ht
      refine ⟨⟨pyStrip sp.text, sp.font_size, sp.font_name⟩, [], rfl, ?_, ?_⟩
      · simp [← ht]
      · rw [← ht]
        exact hh
  | false =>
    simp only [hh, Bool.false_eq_true, if_false]
    cases hct : st.current_title with
    | none =>
      simp only [hct]
      exact ⟨hsec, by rw [hct] at hcur ⊢; exact hcur⟩
    | some t0 =>
      simp only [hct]
      refine ⟨hsec, ?_⟩
      intro t ht
      simp only [Option.some.injEq] at ht
      obtain ⟨hd, rest, hc, htext, hmatch⟩ := hcur t (by rw [hct, ht])
      replace hc : st.current_content = hd :: rest := hc
      exact ⟨hd, rest ++ [⟨pyStrip sp.text, sp.font_size, sp.font_name⟩],
        by rw [hc]; simp, htext, hmatch⟩

theorem segFoldl_invariant (spans : List SpanF) :
    ∀ st : SegState, SegInvariant st → SegInvariant (spans.foldl segStep st) := by
  induction spans with
  | nil => intro st h; exact h
  | cons sp rest ih =>
    intro st h
    exact ih (segStep st sp) (segStep_invariant st sp h)

/-- Every section in the segmenter's output is headed. -/
theorem extract_sections_headed (spans : List SpanF) (p : String × List SpanF)
    (hp : p ∈ extract_sections_with_font_info spans) : headedContent p := by
  unfold extract_sections_with_font_info at hp
  have hinv := segFoldl_invariant spans ⟨[], none, []⟩ ⟨by simp, by simp⟩
  obtain ⟨hsec, hcur⟩ := hinv
  dsimp only at hp
  split at hp
  · rename_i t heq
    rcases mem_dictSet hp with h1 | h2
    · exact hsec p h1
    · rw [h2]
      exact hcur t heq
  · exact hsec p hp

/-- Claim C6: in every section produced by the layout segmenter, the first
content element is the heading span itself (label text, heading-matching),
and that span never survives the strictly-smaller-font filter used by the
section-keyword extractors, since its font size is not strictly smaller than
itself. -/
theorem spec2proof_C6 (spans : List SpanF) (p : String × List SpanF)
    (hp : p ∈ extract_sections_with_font_info spans) :
    ∃ h rest, p.2 = h :: rest ∧ h.text = p.1 ∧ headingMatch p.1 = true ∧
      h ∉ p.2.filter fun it => decide (it.font_size < h.font_size) := by
  obtain ⟨h, rest, hc, htext, hmatch⟩ := extract_sections_headed spans p hp
  refine ⟨h, rest, hc, htext, hmatch, ?_⟩
  intro hmem
  have := (List.mem_filter.mp hmem).2
  simp at this

/-- Claim C6 witness at a concrete two-span document. -/
theorem spec2proof_C6_witness :
    ∃ h rest,
      (("EDUCATION", [⟨"EDUCATION", 12, "F"⟩, ⟨"BSc", 10, "F"⟩]) : String × List SpanF).2 =
        h :: rest ∧
      h.text = ("EDUCATION", [(⟨"EDUCATION", 12, "F"⟩ : SpanF), ⟨"BSc", 10, "F"⟩]).1 ∧
      headingMatch ("EDUCATION", [(⟨"EDUCATION", 12, "F"⟩ : SpanF), ⟨"BSc", 10, "F"⟩]).1 = true ∧
      h ∉ (("EDUCATION", [⟨"EDUCATION", 12, "F"⟩, ⟨"BSc", 10, "F"⟩]) :
          String × List SpanF).2.filter fun it => decide (it.font_size < h.font_size) :=
  spec2proof_C6 [⟨"EDUCATION", 12, "F"⟩, ⟨"BSc", 10, "F"⟩]
    ("EDUCATION", [⟨"EDUCATION", 12, "F"⟩, ⟨"BSc", 10, "F"⟩]) (by decide)

/-- Claim C10: every content sequence in the segmenter's output mapping is
non-empty (each section is seeded with its heading span), so first-element
reads on these contents are in bounds. -/
theorem spec2proof_C10 (spans : List SpanF) (p : String × List SpanF)
    (hp : p ∈ extract_sections_with_font_info spans) : p.2 ≠ [] := by
  obtain ⟨h, rest, hc, _, _⟩ := extract_sections_headed spans p hp
  simp [hc]

/-- Claim C10 witness at a concrete document. -/
theorem spec2proof_C10_witness :
    (("SKILLS", [⟨"SKILLS", 12, "G"⟩, ⟨"Python", 9, "G"⟩]) : String × List SpanF).2 ≠ [] :=
  spec2proof_C10 [⟨"SKILLS", 12, "G"⟩, ⟨"Python", 9, "G"⟩]
    ("SKILLS", [⟨"SKILLS", 12, "G"⟩, ⟨"Python", 9, "G"⟩]) (by decide)

/-- Looking up the assigned key after a dict assignment yields the assigned
value. -/
theorem lookup_dictSet_self (m : Sections) (k : String) (v : List SpanF) :
    (dictSet m k v).lookup k = some v := by
  induction m with
  | nil => simp [dictSet, List.lookup]
  | cons q rest ih =>
    obtain ⟨k0, v0⟩ := q
    by_cases h : k0 = k
    · subst h
      simp [dictSet, List.lookup]
    · simp only [dictSet, h, if_false]
      rw [List.lookup_cons]
      have : (k == k0) = false := by
        simp only [beq_eq_false_iff_ne, ne_eq]
        exact fun e => h e.symm
      rw [this]
      exact ih

/-- Folding non-heading spans while a section is open only appends their
stripped forms to the open content. -/
theorem segFoldl_no_heading (ys : List SpanF) :
    ∀ (secs : Sections) (t : String) (c : List SpanF),
      (∀ s ∈ ys, headingMatch (pyStrip s.text) = false) →
      ys.foldl segStep ⟨secs, some t, c⟩ = ⟨secs, some t, c ++ ys.map stripSpan⟩ := by
  induction ys with
  | nil => intro secs t c _; simp
  | cons y ys ih =>
    intro secs t c hys
    have hy := hys y (List.mem_cons_self _ _)
    have e1 : segStep ⟨secs, some t, c⟩ y = ⟨secs, some t, c ++ [stripSpan y]⟩ := by
      simp [segStep, hy, stripSpan]
    rw [List.foldl_cons, e1, ih secs t (c ++ [stripSpan y])
      (fun s hs => hys s (List.mem_cons_of_mem _ hs))]
    simp

/-- Claim C7: when two heading spans carry the same stripped label with no
further heading in between or after, the final mapping binds that label to
the later section's content alone: the heading span of the second occurrence
followed by its trailing spans.  The earlier section's content is
overwritten, not merged. -/
theorem spec2proof_C7 (xs ys zs : List SpanF) (h1 h2 : SpanF)
    (ht : pyStrip h1.text = pyStrip h2.text)
    (hh2 : headingMatch (pyStrip h2.text) = true)
    (hys : ∀ s ∈ ys, headingMatch (pyStrip s.text) = false)
    (hzs : ∀ s ∈ zs, headingMatch (pyStrip s.text) = false) :
    (extract_sections_with_font_info (xs ++ h1 :: (ys ++ h2 :: zs))).lookup (pyStrip h2.text) =
      some (⟨pyStrip h2.text, h2.font_size, h2.font_name⟩ :: zs.map stripSpan) := by
  unfold extract_sections_with_font_info
  rw [List.foldl_append, List.foldl_cons]
  have hh1 : headingMatch (pyStrip h1.text) = true := by rw [ht]; exact hh2
  set st0 := xs.foldl segStep ⟨[], none, []⟩ with hst0
  have e1 : segStep st0 h1 =
      ⟨(match st0.current_title with
        | some t => dictSet st0.sections t st0.current_content
        | none => st0.sections), some (pyStrip h1.text),
        [⟨pyStrip h1.text, h1.font_size, h1.font_name⟩]⟩ := by
    simp [segStep, hh1]
  rw [e1, List.foldl_append, segFoldl_no_heading ys _ _ _ hys, List.foldl_cons]
  set secs1 := (match st0.current_title with
    | some t => dictSet st0.sections t st0.current_content
    | none => st0.sections) with hsecs1
  have e2 : segStep ⟨secs1, some (pyStrip h1.text),
      [⟨pyStrip h1.text, h1.font_size, h1.font_name⟩] ++ ys.map stripSpan⟩ h2 =
      ⟨dictSet secs1 (pyStrip h1.text)
        ([⟨pyStrip h1.text, h1.font_size, h1.font_name⟩] ++ ys.map stripSpan),
        some (pyStrip h2.text), [⟨pyStrip h2.text, h2.font_size, h2.font_name⟩]⟩ := by
    simp [segStep, hh2]
  rw [e2, segFoldl_no_heading zs _ _ _ hzs]
  simp only [List.cons_append, List.nil_append]
  exact lookup_dictSet_self _ _ _

/-- Claim C7 witness: a concrete document with a duplicated SKILLS heading;
only the second occurrence's content survives under the label. -/
theorem spec2proof_C7_witness :
    (extract_sections_with_font_info
        ([] ++ (⟨"SKILLS ", 14, "F"⟩ : SpanF) ::
          ([⟨"alpha", 10, "F"⟩] ++ (⟨"SKILLS", 12, "G"⟩ : SpanF) :: [⟨"beta", 9, "F"⟩]))).lookup
        (pyStrip "SKILLS") =
      some (⟨pyStrip "SKILLS", 12, "G"⟩ :: [(⟨"beta", 9, "F"⟩ : SpanF)].map stripSpan) :=
  spec2proof_C7 [] [⟨"alpha", 10, "F"⟩] [⟨"beta", 9, "F"⟩] ⟨"SKILLS ", 14, "F"⟩
    ⟨"SKILLS", 12, "G"⟩ (by decide) (by decide) (by decide) (by decide)

/-! ### Claim C2: the name extractor -/

/-- Claim C2 counterexample: the all-uppercase line JOHN DOE does match the
name pattern (the letter class after the leading uppercase letter admits
uppercase letters), so the extractor returns it rather than reporting
absence. -/
theorem spec2proof_C2_counterexample : extract_name "JOHN DOE" = some "JOHN DOE" := by decide

/-- Claim C2 amended: the name extractor returns the first stripped line made
of two tokens, each an uppercase letter followed by any letters (so fully
uppercase tokens qualify too), separated by whitespace and nothing else; it
returns absence exactly when no line's stripped form matches: on the lines
John Doe and Software Engineer it returns John Doe, and on the single
all-uppercase line JOHN DOE it returns that line, not absence. -/
theorem spec2proof_C2_amended :
    extract_name "John Doe\nSoftware Engineer" = some "John Doe" ∧
      extract_name "JOHN DOE" = some "JOHN DOE" ∧
      ∀ text : String,
        (extract_name text = none ↔ ∀ l ∈ splitLines text, nameMatch (pyStrip l) = false) := by
  refine ⟨by decide, by decide, ?_⟩
  intro text
  unfold extract_name
  rw [List.find?_eq_none]
  constructor
  · intro h l hl
    have := h (pyStrip l) (List.mem_map_of_mem pyStrip hl)
    simpa using this
  · intro h x hx
    obtain ⟨l, hl, rfl⟩ := List.mem_map.mp hx
    simp [h l hl]

/-! ### Claim C3: the summary extractor's fallback trigger -/

/-- Claim C3 counterexample: with no summary heading anywhere, the
name-shaped first line arms the fallback, the second line seeds the summary,
and the third line is appended as well (concatenated without a separator),
so the result is not the single line following the name-shaped line. -/
theorem spec2proof_C3_counterexample :
    (∀ l ∈ splitLines "John Doe\nAn engineer\nwho codes here", titleMatch l = false) ∧
      nameShaped "John Doe" = true ∧
      extract_summary "John Doe\nAn engineer\nwho codes here" = "An engineerwho codes here" ∧
      extract_summary "John Doe\nAn engineer\nwho codes here" ≠ "An engineer" := by
  refine ⟨by decide, by decide, by decide, by decide⟩

/-- Claim C3 amended: when no line triggers the explicit heading branch and a
name-shaped line has armed the fallback, the line after it seeds the summary
and capture mode stays on: the next non-empty, non-heading line is appended
to the seed (with a trailing space, and no separator between seed and
appendage), rather than the capture ending after the single seeded line. -/
theorem spec2proof_C3_amended (n s t : String)
    (ht1 : titleMatch n = false) (ht2 : titleMatch s = false) (ht3 : titleMatch t = false)
    (hn : nameShaped n = true) (hth : headingMatch t = false)
    (hne : (pyStrip t).data.isEmpty = false) :
    pyStrip (summaryLoop [n, s, t] "" false false) = pyStrip (pyStrip s ++ pyStrip t ++ " ") := by
  have e1 : summaryLoop [n, s, t] "" false false = summaryLoop [s, t] "" true false := by
    simp [summaryLoop, ht1, hn]
  have e2 : summaryLoop [s, t] "" true false = summaryLoop [t] (pyStrip s) true true := by
    simp [summaryLoop, ht2]
  have e3 : summaryLoop [t] (pyStrip s) true true = pyStrip s ++ pyStrip t ++ " " := by
    rw [summaryLoop]
    simp [ht3, hth, hne, summaryLoop]
  rw [e1, e2, e3]

/-- Claim C3 witness: the amended behaviour at the concrete counterexample
document. -/
theorem spec2proof_C3_witness :
    pyStrip (summaryLoop ["John Doe", "An engineer", "who codes here"] "" false false) =
      pyStrip (pyStrip "An engineer" ++ pyStrip "who codes here" ++ " ") :=
  spec2proof_C3_amended "John Doe" "An engineer" "who codes here"
    (by decide) (by decide) (by decide) (by decide) (by decide) (by decide)

/-! ### Claim C5: the work-experience state machine -/

/-- Claim C5 counterexample: two spans that qualify by the claim's test (bold
font name, size at least ten) but whose stripped text is empty produce zero
entries, not two: an empty-string title is falsy in the source, so it is
never committed and the second bold span overwrites the first instead of
flushing it. -/
theorem spec2proof_C5_counterexample :
    containsSub "Bold" "Arial-Bold" = true ∧ (10 : ℚ) ≤ 12 ∧
      containsSub "Bold" "Times-Bold" = true ∧ (10 : ℚ) ≤ 11 ∧
      extract_work_experience
        [("WORK EXPERIENCE",
          [⟨"WORK EXPERIENCE", 14, "Helv"⟩, ⟨" ", 12, "Arial-Bold"⟩, ⟨"  ", 11, "Times-Bold"⟩])] =
        [] := by
  refine ⟨by decide, by norm_num, by decide, by norm_num, by decide⟩

/-- Each entry committed by one step was already committed or is the current
entry, committed only when its title is truthy. -/
theorem weStep_entries_sub (st : WEState) (sp : SpanF) :
    ∀ e ∈ (weStep st sp).entries,
      e ∈ st.entries ∨ (e = st.current ∧ optTruthy st.current.title = true) := by
  intro e he
  unfold weStep at he
  dsimp only at he
  by_cases h1 : (containsSub "Bold" sp.font_name && decide ((10 : ℚ) ≤ sp.font_size)) = true
  · rw [if_pos h1] at he
    by_cases h2 : optTruthy st.current.title = true
    · rw [if_pos h2] at he
      dsimp only at he
      rcases List.mem_append.mp he with h3 | h4
      · exact Or.inl h3
      · exact Or.inr ⟨List.mem_singleton.mp h4, h2⟩
    · rw [if_neg h2] at he
      exact Or.inl he
  · rw [if_neg h1] at he
    split_ifs at he <;> exact Or.inl he

/-- A truthy optional string is a nonempty string. -/
theorem optTruthy_spec (o : Option String) (h : optTruthy o = true) :
    ∃ s, o = some s ∧ s ≠ "" := by
  cases o with
  | none => exact absurd h (by decide)
  | some s =>
    refine ⟨s, rfl, ?_⟩
    intro hs
    subst hs
    simp [optTruthy] at h

theorem weFoldl_titled (lines : List SpanF) :
    ∀ st : WEState, (∀ e ∈ st.entries, ∃ s, e.title = some s ∧ s ≠ "") →
      ∀ e ∈ (lines.foldl weStep st).entries, ∃ s, e.title = some s ∧ s ≠ "" := by
  induction lines with
  | nil => intro st h; exact h
  | cons sp rest ih =>
    intro st h
    refine ih (weStep st sp) ?_
    intro e he
    rcases weStep_entries_sub st sp e he with h1 | ⟨h2, h3⟩
    · exact h e h1
    · subst h2
      exact optTruthy_spec _ h3

/-- Every entry the work-experience extractor emits carries a nonempty
title. -/
theorem workEntries_titled (sections : Sections) (e : WorkEntry)
    (he : e ∈ extract_work_experience sections) : ∃ s, e.title = some s ∧ s ≠ "" := by
  unfold extract_work_experience at he
  split at he
  · rename_i p _
    unfold processWESection at he
    dsimp only at he
    split at he
    · rename_i htruthy
      rcases List.mem_append.mp he with h1 | h2
      · exact weFoldl_titled (p.2.drop 1) ⟨[], emptyEntry, false⟩ (by simp) e h1
      · have h2' := List.mem_singleton.mp h2
        subst h2'
        exact optTruthy_spec _ htruthy
    · exact weFoldl_titled (p.2.drop 1) ⟨[], emptyEntry, false⟩ (by simp) e he
  · exact absurd he (by simp)

/-- The current title after one step: set to the stripped span text exactly
when the span is bold with font size at least ten, untouched otherwise. -/
theorem weStep_title (st : WEState) (sp : SpanF) :
    (weStep st sp).current.title =
      if containsSub "Bold" sp.font_name && decide ((10 : ℚ) ≤ sp.font_size) then
        some (pyStrip sp.text)
      else st.current.title := by
  unfold weStep
  dsimp only
  by_cases h1 : (containsSub "Bold" sp.font_name && decide ((10 : ℚ) ≤ sp.font_size)) = true
  · rw [if_pos h1, if_pos h1]
  · rw [if_neg h1, if_neg h1]
    split_ifs <;> rfl

/-- Claim C5 amended: a span sets the current title exactly when bold with
font size at least ten; two such qualifying spans whose stripped text is
nonempty, fed as the whole content after the heading span of a matching
section, yield exactly two entries, the first holding only its title; and
every emitted entry has a nonempty title (titles that are empty strings are
falsy and never committed). -/
theorem spec2proof_C5_amended :
    (∀ (t : String) (h b1 b2 : SpanF),
        searchCI work_experience_titles t = true →
        containsSub "Bold" b1.font_name = true → (10 : ℚ) ≤ b1.font_size →
        (pyStrip b1.text).data.isEmpty = false →
        containsSub "Bold" b2.font_name = true → (10 : ℚ) ≤ b2.font_size →
        (pyStrip b2.text).data.isEmpty = false →
        extract_work_experience [(t, [h, b1, b2])] =
          [⟨some (pyStrip b1.text), none, none, []⟩, ⟨some (pyStrip b2.text), none, none, []⟩]) ∧
      (∀ (sections : Sections) (e : WorkEntry), e ∈ extract_work_experience sections →
        ∃ s, e.title = some s ∧ s ≠ "") ∧
      ∀ (st : WEState) (sp : SpanF),
        (weStep st sp).current.title =
          if containsSub "Bold" sp.font_name && decide ((10 : ℚ) ≤ sp.font_size) then
            some (pyStrip sp.text)
          else st.current.title := by
  refine ⟨?_, workEntries_titled, weStep_title⟩
  intro t h b1 b2 hw hb1 hs1 hn1 hb2 hs2 hn2
  have hcond1 : (containsSub "Bold" b1.font_name && decide ((10 : ℚ) ≤ b1.font_size)) = true := by
    rw [hb1, decide_eq_true hs1]
    rfl
  have hcond2 : (containsSub "Bold" b2.font_name && decide ((10 : ℚ) ≤ b2.font_size)) = true := by
    rw [hb2, decide_eq_true hs2]
    rfl
  have step1 : weStep ⟨[], emptyEntry, false⟩ b1 =
      ⟨[], ⟨some (pyStrip b1.text), none, none, []⟩, false⟩ := by
    simp [weStep, hcond1, optTruthy, emptyEntry]
  have step2 : weStep ⟨[], ⟨some (pyStrip b1.text), none, none, []⟩, false⟩ b2 =
      ⟨[⟨some (pyStrip b1.text), none, none, []⟩],
        ⟨some (pyStrip b2.text), none, none, []⟩, false⟩ := by
    simp [weStep, hcond2, optTruthy, hn1, emptyEntry]
  unfold extract_work_experience
  rw [List.find?_cons_of_pos _ (by simpa using hw)]
  dsimp only
  unfold processWESection
  dsimp only
  rw [show ([h, b1, b2].drop 1) = [b1, b2] from rfl, List.foldl_cons, step1, List.foldl_cons,
    step2, List.foldl_nil]
  simp [optTruthy, hn2]

/-- Claim C5 witness: the two-entry scenario at concrete bold spans. -/
theorem spec2proof_C5_witness :
    extract_work_experience
        [("WORK EXPERIENCE",
          [⟨"WORK EXPERIENCE", 14, "Helv"⟩, ⟨"Engineer Lead", 12, "F-Bold"⟩,
            ⟨"Dev", 11, "G-Bold"⟩])] =
      [⟨some (pyStrip "Engineer Lead"), none, none, []⟩, ⟨some (pyStrip "Dev"), none, none, []⟩] :=
  spec2proof_C5_amended.1 "WORK EXPERIENCE" ⟨"WORK EXPERIENCE", 14, "Helv"⟩
    ⟨"Engineer Lead", 12, "F-Bold"⟩ ⟨"Dev", 11, "G-Bold"⟩
    (by decide) (by decide) (by norm_num) (by decide) (by decide) (by norm_num) (by decide)

/-! ### Claims C1 and C8: the accounts extractor -/

/-- Claim C1 counterexample: on the spec's own example input the URL match
is stored as the concatenation of its captured groups, which omits the dot
and TLD (no group captures them), so the mapping holds
https-colon-slash-slash-www.example rather than the full matched literal
ending in .org. -/
theorem spec2proof_C1_counterexample :
    extract_accounts_from_resume
        "Contact me at jane@example.com or visit https://www.example.org" =
      [("example", ["jane@example.com", "https://www.example"])] ∧
      "https://www.example.org" ∉
        ((extract_accounts_from_resume
            "Contact me at jane@example.com or visit https://www.example.org").lookup
          "example").getD [] := by
  refine ⟨by decide, by decide⟩

/-- Claim C1 amended: each URL-like match is appended under its domain-label
key as the concatenation of the captured scheme, www prefix, domain label
and path; the uncaptured dot and TLD are dropped.  On the example input the
whole mapping is the single key example holding the email literal followed
by the truncated URL literal. -/
theorem spec2proof_C1_amended :
    extract_accounts_from_resume
        "Contact me at jane@example.com or visit https://www.example.org" =
      [("example", ["jane@example.com", "https://www.example"])] := by
  decide

/-- Claim C8 counterexample: an email whose domain part begins with a dot is
stored under the empty grouping key — the email branch, unlike the URL
branch, performs no emptiness check on the derived key. -/
theorem spec2proof_C8_counterexample :
    ("", ["a@.b.com"]) ∈ extract_accounts_from_resume "a@.b.com" := by
  decide

/-- A URL-alternative match leaves the email group empty. -/
theorem tryAlt1_email (cs : List Char) (acm : AccMatch) (rest : List Char)
    (h : tryAlt1 cs = some (acm, rest)) : acm.email = "" := by
  unfold tryAlt1 at h
  obtain ⟨a, _, hfa⟩ := List.exists_of_findSome?_eq_some h
  rw [Option.map_eq_some'] at hfa
  obtain ⟨r, _, heq⟩ := hfa
  have hm := congrArg Prod.fst heq
  dsimp at hm
  rw [← hm]

/-- An email-alternative match produces an email containing the at sign. -/
theorem tryAlt2_email (cs : List Char) (acm : AccMatch) (rest : List Char)
    (h : tryAlt2 cs = some (acm, rest)) : '@' ∈ acm.email.data := by
  unfold tryAlt2 at h
  by_cases hl : (cs.takeWhile isEmailLocalChar).isEmpty = true
  · rw [if_pos hl] at h
    exact absurd h (by simp)
  · rw [if_neg hl] at h
    split at h
    · exact absurd h (by simp)
    · rename_i a r1 _
      by_cases ha : (a == '@') = true
      · rw [if_pos ha] at h
        obtain ⟨r, _, hfr⟩ := List.exists_of_findSome?_eq_some h
        dsimp only at hfr
        by_cases hdot : (r1.getD r ' ' == '.') = true
        · rw [if_pos hdot] at hfr
          by_cases htl : 2 ≤ ((r1.drop (r + 1)).takeWhile Char.isAlpha).length
          · rw [if_pos htl] at hfr
            have hm := congrArg Prod.fst (Option.some.inj hfr)
            dsimp at hm
            rw [← hm]
            simp
          · rw [if_neg htl] at hfr
            exact absurd hfr (by simp)
        · rw [if_neg hdot] at hfr
          exact absurd hfr (by simp)
      · rw [if_neg ha] at h
        exact absurd h (by simp)

/-- Any match with a nonempty email group contains the at sign. -/
theorem tryMatch_email (cs : List Char) (acm : AccMatch) (rest : List Char)
    (h : tryMatch cs = some (acm, rest)) (hne : acm.email ≠ "") : '@' ∈ acm.email.data := by
  unfold tryMatch at h
  cases h1 : tryAlt1 cs with
  | some x =>
    rw [h1] at h
    have hx : some x = some (acm, rest) := h
    rw [Option.some.inj hx] at h1
    exact absurd (tryAlt1_email cs acm rest h1) hne
  | none =>
    rw [h1] at h
    have h2 : tryAlt2 cs = some (acm, rest) := h
    exact tryAlt2_email cs acm rest h2

/-- One unfolding of the scan at positive fuel. -/
theorem scanAux_succ (fuel : Nat) (cs : List Char) :
    scanAux (fuel + 1) cs =
      match tryMatch cs with
      | some (m, rest) => m :: scanAux fuel rest
      | none =>
        match cs with
        | [] => []
        | _ :: t => scanAux fuel t := rfl

/-- Every match the findall scan emits with a nonempty email group contains
the at sign. -/
theorem scanAux_email (fuel : Nat) :
    ∀ (cs : List Char), ∀ acm ∈ scanAux fuel cs, acm.email ≠ "" → '@' ∈ acm.email.data := by
  induction fuel with
  | zero =>
    intro cs acm h
    exact absurd h (by simp [scanAux])
  | succ fuel ih =>
    intro cs acm h hne
    rw [scanAux_succ] at h
    split at h
    · rename_i m rest hm
      rcases List.mem_cons.mp h with h1 | h2
      · subst h1
        exact tryMatch_email cs acm rest hm hne
      · exact ih rest acm h2 hne
    · split at h
      · exact absurd h (by simp)
      · exact ih _ acm h hne

/-- Membership in the accounts dictionary after a setdefault-append: each
element of the stored list is the appended value under the appended key, or
was already stored under the same key. -/
theorem mem_dictAppend (ms : AccountsIndex) (key v : String) :
    ∀ (k : String) (vs : List String), (k, vs) ∈ dictAppend ms key v →
      ∀ x ∈ vs, (k = key ∧ x = v) ∨ ∃ vs0, (k, vs0) ∈ ms ∧ x ∈ vs0 := by
  induction ms with
  | nil =>
    intro k vs h x hx
    simp [dictAppend] at h
    obtain ⟨hk, hvs⟩ := h
    subst hk
    subst hvs
    exact Or.inl ⟨rfl, List.mem_singleton.mp hx⟩
  | cons q rest ih =>
    obtain ⟨k0, vs0⟩ := q
    intro k vs h x hx
    by_cases hk0 : k0 = key
    · subst hk0
      simp only [dictAppend, if_pos rfl] at h
      rcases List.mem_cons.mp h with h1 | h2
      · obtain ⟨hk, hvs⟩ := Prod.mk.inj h1
        subst hk
        subst hvs
        rcases List.mem_append.mp hx with hx1 | hx2
        · exact Or.inr ⟨vs0, List.mem_cons_self _ _, hx1⟩
        · exact Or.inl ⟨rfl, List.mem_singleton.mp hx2⟩
      · exact Or.inr ⟨vs, List.mem_cons_of_mem _ h2, hx⟩
    · simp only [dictAppend, if_neg hk0] at h
      rcases List.mem_cons.mp h with h1 | h2
      · obtain ⟨hk, hvs⟩ := Prod.mk.inj h1
        subst hk
        subst hvs
        exact Or.inr ⟨vs, List.mem_cons_self _ _, hx⟩
      · rcases ih k vs h2 x hx with h3 | ⟨vs1, h4, h5⟩
        · exact Or.inl h3
        · exact Or.inr ⟨vs1, List.mem_cons_of_mem _ h4, h5⟩

/-- Invariant of the accounts dictionary: everything stored under the empty
key contains an at sign. -/
def accInv (acc : AccountsIndex) : Prop :=
  ∀ vs, ("", vs) ∈ acc → ∀ x ∈ vs, '@' ∈ x.data

theorem accountsStep_inv (acc : AccountsIndex) (m : AccMatch)
    (hm : m.email ≠ "" → '@' ∈ m.email.data) (hacc : accInv acc) :
    accInv (accountsStep acc m) := by
  unfold accountsStep
  dsimp only
  have hacc1 : accInv
      (if m.scheme ++ m.www ++ m.domain ++ m.path ≠ "" then
        (if m.domain ≠ "" then
          dictAppend acc m.domain (m.scheme ++ m.www ++ m.domain ++ m.path)
        else acc)
      else acc) := by
    split_ifs with h1 h2
    · intro vs hvs x hx
      rcases mem_dictAppend acc m.domain _ "" vs hvs x hx with ⟨hk, _⟩ | ⟨vs1, hm1, hx1⟩
      · exact absurd hk.symm h2
      · exact hacc vs1 hm1 x hx1
    · exact hacc
    · exact hacc
  by_cases he : m.email ≠ ""
  · rw [if_pos he]
    intro vs hvs x hx
    rcases mem_dictAppend _ (emailKey m.email) m.email "" vs hvs x hx with
      ⟨_, hxv⟩ | ⟨vs1, hm1, hx1⟩
    · rw [hxv]
      exact hm he
    · exact hacc1 vs1 hm1 x hx1
  · rw [if_neg he]
    exact hacc1

theorem accountsFoldl_inv (ms : List AccMatch) :
    ∀ acc : AccountsIndex, (∀ m ∈ ms, m.email ≠ "" → '@' ∈ m.email.data) → accInv acc →
      accInv (ms.foldl accountsStep acc) := by
  induction ms with
  | nil => intro acc _ h; exact h
  | cons m rest ih =>
    intro acc hms hacc
    exact ih (accountsStep acc m) (fun m1 h1 => hms m1 (List.mem_cons_of_mem _ h1))
      (accountsStep_inv acc m (hms m (List.mem_cons_self _ _)) hacc)

/-- Lookup success gives membership in the association list. -/
theorem lookup_mem_accounts (l : AccountsIndex) (k : String) (vs : List String)
    (h : l.lookup k = some vs) : (k, vs) ∈ l := by
  induction l with
  | nil => simp [List.lookup] at h
  | cons q rest ih =>
    obtain ⟨k0, v0⟩ := q
    rw [List.lookup_cons] at h
    by_cases hk : (k == k0) = true
    · rw [hk] at h
      have h2 : some v0 = some vs := h
      rw [beq_iff_eq] at hk
      subst hk
      have h3 := Option.some.inj h2
      subst h3
      exact List.mem_cons_self _ _
    · rw [Bool.not_eq_true] at hk
      rw [hk] at h
      have h2 : rest.lookup k = some vs := h
      exact List.mem_cons_of_mem _ (ih h2)

/-- Claim C8 amended: URL-derived keys are guarded by a non-emptiness check,
but email-derived keys are not: an email whose domain part begins with a dot
is stored under the empty key (the concrete input shows it), and everything
stored under the empty key is an email match, i.e. contains an at sign. -/
theorem spec2proof_C8_amended :
    extract_accounts_from_resume "a@.b.com" = [("", ["a@.b.com"])] ∧
      ∀ (text : String) (vs : List String) (v : String),
        (extract_accounts_from_resume text).lookup "" = some vs → v ∈ vs → '@' ∈ v.data := by
  refine ⟨by decide, ?_⟩
  intro text vs v hlk hv
  have hmem : ("", vs) ∈ extract_accounts_from_resume text := lookup_mem_accounts _ _ _ hlk
  have hinv : accInv (extract_accounts_from_resume text) :=
    accountsFoldl_inv (reFindallAccounts text) []
      (fun m hm => scanAux_email _ _ m hm) (by intro vs h; exact absurd h (by simp))
  exact hinv vs hmem v hv

/-! ### Claim C9: the driver's sentinel substitution -/

/-- Claim C9: for every document (flat text and span stream), the assembled
record maps each fixed key to the extractor's value when that value is
truthy, and to the sentinel string when the extractor's result is empty or
absent — for the scalar fields Name and Summary and for the container fields
Accounts, Skills, Education, Certifications, Projects and Work Experience
alike. -/
theorem spec2proof_C9 (text : String) (spans : List SpanF) :
    ((parse_resume text spans).lookup "Name" =
      some (match extract_name text with
            | some n => if n.data.isEmpty then sentinel else FieldValue.str n
            | none => sentinel)) ∧
    ((parse_resume text spans).lookup "Summary" =
      some (if (extract_summary text).data.isEmpty then sentinel
            else FieldValue.str (extract_summary text))) ∧
    ((parse_resume text spans).lookup "Accounts" =
      some (if (extract_accounts_from_resume text).isEmpty then sentinel
            else FieldValue.accounts (extract_accounts_from_resume text))) ∧
    ((parse_resume text spans).lookup "Skills" =
      some (if (extract_skills (extract_sections_with_font_info spans)).isEmpty then sentinel
            else FieldValue.strs (extract_skills (extract_sections_with_font_info spans)))) ∧
    ((parse_resume text spans).lookup "Education" =
      some (if (extract_education (extract_sections_with_font_info spans)).isEmpty then sentinel
            else FieldValue.strs (extract_education (extract_sections_with_font_info spans)))) ∧
    ((parse_resume text spans).lookup "Certifications" =
      some (if (extract_certifications (extract_sections_with_font_info spans)).isEmpty then
              sentinel
            else FieldValue.strs
              (extract_certifications (extract_sections_with_font_info spans)))) ∧
    ((parse_resume text spans).lookup "Projects" =
      some (if (extract_projects (extract_sections_with_font_info spans)).isEmpty then sentinel
            else FieldValue.strs (extract_projects (extract_sections_with_font_info spans)))) ∧
    ((parse_resume text spans).lookup "Work Experience" =
      some (if (extract_work_experience (extract_sections_with_font_info spans)).isEmpty then
              sentinel
            else FieldValue.work
              (extract_work_experience (extract_sections_with_font_info spans)))) :=
  ⟨rfl, rfl, rfl, rfl, rfl, rfl, rfl, rfl⟩

end ResumeParser
